import Mathlib

/-!
Verification of the disk-passthrough helper (`scripts/disk_passthrough.py`).

The script is embedded shallowly: every external process invocation
(`lsblk`, `zpool status`, `find /dev/disk/by-id`, `qm list`, `qm config`)
becomes an explicit `Except Unit String` (or alias-list) parameter, and the
pure text processing of the script is translated function by function.
Strings are processed through their character lists so that every
definition is structural and executable by `decide`.  Whitespace and digit
classification follow the ASCII behaviour of the Python string methods.
-/

/-- Membership of the whitespace set used by Python `str.split` / `str.strip`. -/
def isPySpace (c : Char) : Bool :=
  c == ' ' || c == '\t' || c == '\n' || c == '\r' || c == '\x0B' || c == '\x0C'

/-- Python `str.strip()`: drop leading and trailing whitespace. -/
def pyStrip (l : List Char) : List Char :=
  ((l.dropWhile isPySpace).reverse.dropWhile isPySpace).reverse

/-- Python `str.split("\n")`: split on every newline, keeping empty pieces. -/
def splitOnNl : List Char → List (List Char)
  | [] => [[]]
  | '\n' :: r => [] :: splitOnNl r
  | c :: r =>
      match splitOnNl r with
      | h :: t => (c :: h) :: t
      | [] => [[c]]

/-- Worker for `pySplitlines`; `acc` holds the reversed current line. -/
def linesGo (acc : List Char) : List Char → List (List Char)
  | [] => [acc.reverse]
  | ['\r', '\n'] => [acc.reverse]
  | '\r' :: '\n' :: c :: r => acc.reverse :: linesGo [] (c :: r)
  | ['\n'] => [acc.reverse]
  | '\n' :: c :: r => acc.reverse :: linesGo [] (c :: r)
  | ['\r'] => [acc.reverse]
  | '\r' :: c :: r => acc.reverse :: linesGo [] (c :: r)
  | c :: r => linesGo (c :: acc) r

/-- Python `str.splitlines()` restricted to the `\n`, `\r`, `\r\n` boundaries. -/
def pySplitlines (l : List Char) : List (List Char) :=
  match l with
  | [] => []
  | c :: r => linesGo [] (c :: r)

/-- Worker for `pySplit`; `acc` holds the reversed current token. -/
def pySplitGo (acc : List Char) : List Char → List (List Char)
  | [] => if acc.isEmpty then [] else [acc.reverse]
  | c :: r =>
      if isPySpace c then
        if acc.isEmpty then pySplitGo [] r else acc.reverse :: pySplitGo [] r
      else pySplitGo (c :: acc) r

/-- Python `str.split()` with no arguments: whitespace-run tokenisation. -/
def pySplit (l : List Char) : List (List Char) :=
  pySplitGo [] l

/-- Worker for `pySplitMax`; `m` counts the splits still allowed and `acc`
holds the reversed current token.  Once `m` is exhausted the rest of the
string (from the current token on, trailing whitespace included) is a single
final chunk, exactly as in CPython. -/
def pySplitMaxGo (m : ℕ) (acc : List Char) : List Char → List (List Char)
  | [] => if acc.isEmpty then [] else [acc.reverse]
  | c :: r =>
      if isPySpace c then
        if acc.isEmpty then pySplitMaxGo m [] r
        else
          match m with
          | 0 => [acc.reverse ++ c :: r]
          | m' + 1 => acc.reverse :: pySplitMaxGo m' [] r
      else pySplitMaxGo m (c :: acc) r

/-- Python `str.split(maxsplit=m)`. -/
def pySplitMax (m : ℕ) (l : List Char) : List (List Char) :=
  pySplitMaxGo m [] l

/-- The `re.sub(r'([a-zA-Z]) ([a-zA-Z])', r'\1-\2', _)` fixup of the script:
replace every (non-overlapping, left-to-right) single space between two
ASCII letters by a hyphen. -/
def hyphenFix : List Char → List Char
  | a :: ' ' :: b :: rest =>
      if a.isAlpha && b.isAlpha then a :: '-' :: b :: hyphenFix rest
      else a :: hyphenFix (' ' :: b :: rest)
  | a :: rest => a :: hyphenFix rest
  | [] => []

/-- `leadsWith p l` holds when `p` is an initial segment of `l`. -/
def leadsWith : List Char → List Char → Bool
  | [], _ => true
  | _ :: _, [] => false
  | a :: p, b :: l => a == b && leadsWith p l

/-- Python `pat in s` substring test. -/
def occursIn (pat : List Char) : List Char → Bool
  | [] => pat.isEmpty
  | c :: r => leadsWith pat (c :: r) || occursIn pat r

/-- Strip a literal leading sequence: `stripSeq p l = some r` iff `l = p ++ r`. -/
def stripSeq : List Char → List Char → Option (List Char)
  | [], l => some l
  | _ :: _, [] => none
  | a :: p, b :: l => if a == b then stripSeq p l else none

/-- Whether a character list starts with a colon. -/
def startsColon : List Char → Bool
  | c :: _ => c == ':'
  | [] => false

/-- Value of an ASCII digit string (`int` on a plain digit sequence). -/
def digitsVal (ds : List Char) : ℕ :=
  ds.foldl (fun a c => 10 * a + (c.toNat - '0'.toNat)) 0

/-- Tail of a Python integer literal after its first digit: digits with
single underscores allowed between digits only.  Returns the digits. -/
def pyDigits? : List Char → Option (List Char)
  | [] => some []
  | '_' :: c :: r => if c.isDigit then (pyDigits? r).map (fun ds => c :: ds) else none
  | ['_'] => none
  | c :: r => if c.isDigit then (pyDigits? r).map (fun ds => c :: ds) else none

/-- Python `int(s)` on a whitespace-free token (the script only applies it to
`str.split` tokens): optional sign, then ASCII digits with optional single
underscores between digits; `none` models the `ValueError` path. -/
def pyInt? (s : String) : Option Int :=
  match s.data with
  | [] => none
  | '-' :: c :: r =>
      if c.isDigit then (pyDigits? r).map (fun ds => -(digitsVal (c :: ds) : ℤ)) else none
  | '+' :: c :: r =>
      if c.isDigit then (pyDigits? r).map (fun ds => (digitsVal (c :: ds) : ℤ)) else none
  | c :: r =>
      if c.isDigit then (pyDigits? r).map (fun ds => (digitsVal (c :: ds) : ℤ)) else none

/-- `re.match(r"scsi(\d+):", line)`: the line must start with `scsi`,
then one or more digits, then a colon; the digits are parsed as a number. -/
def scsiMatch (l : List Char) : Option ℕ :=
  match stripSeq "scsi".data l with
  | none => none
  | some rest =>
      if ¬ (rest.takeWhile Char.isDigit).isEmpty ∧
          startsColon (rest.dropWhile Char.isDigit) = true then
        some (digitsVal (rest.takeWhile Char.isDigit))
      else none

/-- `output.strip().split("\n")[1:]`, shared by the lsblk and qm-list parsers. -/
def tailLines (l : List Char) : List (List Char) :=
  (splitOnNl (pyStrip l)).drop 1

/-- The data rows of the lsblk output, after the hyphen fixup and header drop. -/
def lsblkRows (out : String) : List (List Char) :=
  tailLines (hyphenFix out.data)

/-- A physical disk record as built by `enumerate_physical_disks`. -/
structure Disk where
  name : String
  model : String
  serial : String
  size : String
  id_path : String
deriving DecidableEq

/-- A VM record as built by `list_vms`. -/
structure VM where
  vmid : Int
  name : String
  status : String
deriving DecidableEq

/-- `{line.split()[0] for line in zpool_output.split("\n") if "ONLINE" in line}`:
the pool-claimed device names.  The Python set only ever enters through
membership tests, so a list of names is an equivalent carrier. -/
def zfsNames (zout : List Char) : List String :=
  ((splitOnNl zout).filter (fun l => occursIn "ONLINE".data l)).map
    (fun l => String.mk ((pySplit l).headD []))

/-- `next((p for p in id_paths if "wwn-" in p), id_paths[0])` guarded by
`if id_paths:`: first `wwn-` alias when one exists, else the first alias,
and `none` on an empty alias list. -/
def prioritizedPath (id_paths : List String) : Option String :=
  match id_paths.find? (fun p => occursIn "wwn-".data p.data) with
  | some p => some p
  | none => id_paths.head?

/-- `line.split(maxsplit=3)` followed by `len(parts) == 4 and all(parts)`:
the four non-empty fields of a well-formed lsblk row. -/
def rowFields (line : List Char) : Option (String × String × String × String) :=
  match pySplitMax 3 line with
  | [a, b, c, d] =>
      if a.isEmpty || b.isEmpty || c.isEmpty || d.isEmpty then none
      else some (String.mk a, String.mk b, String.mk c, String.mk d)
  | _ => none

/-- One iteration of the row loop of `enumerate_physical_disks`:
`.ok none` when the row is skipped (malformed, pool-claimed, or without any
alias), `.ok (some disk)` when a disk record is appended, `.error` when the
`find` query for the row raises. -/
def enumStep (findRes : String → Except Unit (List String)) (zfs : List String)
    (line : List Char) : Except Unit (Option Disk) :=
  match rowFields line with
  | none => .ok none
  | some (a, b, c, d) =>
      if a ∈ zfs then .ok none
      else
        match findRes a with
        | .error e => .error e
        | .ok id_paths =>
            .ok ((prioritizedPath id_paths).map
              (fun pr => { name := a, model := b, serial := c, size := d,
                           id_path := pr }))

/-- The row loop of `enumerate_physical_disks`.  A `find` failure for a row
that reaches the alias lookup propagates as an error (the Python exception
escapes the loop); malformed or pool-claimed or alias-less rows are skipped. -/
def enumRows (findRes : String → Except Unit (List String)) (zfs : List String) :
    List (List Char) → Except Unit (List Disk)
  | [] => .ok []
  | line :: rest =>
      match enumStep findRes zfs line with
      | .error e => .error e
      | .ok none => enumRows findRes zfs rest
      | .ok (some disk) => (enumRows findRes zfs rest).map (fun tail => disk :: tail)

/-- `enumerate_physical_disks`: any failing query (lsblk, zpool, or a `find`
that is actually reached) lands in an `except` clause and yields `[]`. -/
def enumerate_physical_disks (lsblkRes zpoolRes : Except Unit String)
    (findRes : String → Except Unit (List String)) : List Disk :=
  match lsblkRes with
  | .error _ => []
  | .ok lout =>
      match zpoolRes with
      | .error _ => []
      | .ok zout =>
          match enumRows findRes (zfsNames zout.data) (lsblkRows lout) with
          | .ok ds => ds
          | .error _ => []

/-- The row loop of `list_vms`: rows without exactly three fields are
skipped; a row whose first field fails `int` parsing raises, which the
caller's catch-all turns into an empty listing (`none` here). -/
def vmRows : List (List Char) → Option (List VM)
  | [] => some []
  | line :: rest =>
      match pySplitMax 2 line with
      | [a, b, c] =>
          match pyInt? (String.mk a) with
          | some n => (vmRows rest).map (fun t => ⟨n, String.mk b, String.mk c⟩ :: t)
          | none => none
      | _ => vmRows rest

/-- `list_vms`: a failed `qm list` query or any exception yields `[]`. -/
def list_vms (qmRes : Except Unit String) : List VM :=
  match qmRes with
  | .error _ => []
  | .ok out =>
      match vmRows (tailLines out.data) with
      | some vms => vms
      | none => []

/-- `get_used_scsi_indexes`: fold the `scsi(\d+):` matches of the config
lines into a set; a failed `qm config` query yields the empty set. -/
def get_used_scsi_indexes (cfgRes : Except Unit String) : Finset ℕ :=
  match cfgRes with
  | .error _ => ∅
  | .ok out =>
      (pySplitlines out.data).foldl
        (fun s l =>
          match scsiMatch l with
          | some n => insert n s
          | none => s) ∅

/-- Fuel-bounded body of the `while scsi_index in used_indexes` loop. -/
def nextFreeAux : ℕ → Finset ℕ → ℕ → ℕ
  | 0, _, i => i
  | fuel + 1, used, i => if i ∈ used then nextFreeAux fuel used (i + 1) else i

/-- The `while scsi_index in used_indexes: scsi_index += 1` loop: first index
`≥ i` not in `used`.  `used.card + 1` steps always suffice. -/
def nextFree (used : Finset ℕ) (i : ℕ) : ℕ :=
  nextFreeAux (used.card + 1) used i

/-- The index sequence produced by the allocation loop of
`generate_passthrough_commands`, starting from cursor `idx`, for `n` disks. -/
def allocateFrom (used : Finset ℕ) (idx : ℕ) : ℕ → List ℕ
  | 0 => []
  | n + 1 =>
      nextFree used idx ::
        allocateFrom (insert (nextFree used idx) used) (nextFree used idx) n

/-- The slot-allocator contract of the spec: cursor starts at `0`. -/
def allocate (occupied : Finset ℕ) (n : ℕ) : List ℕ :=
  allocateFrom occupied 0 n

/-- `f"qm set {vmid} -scsi{scsi_index} {disk['id_path']}"`. -/
def renderCmd (vmid : Int) (idx : ℕ) (d : Disk) : String :=
  "qm set " ++ toString vmid ++ " -scsi" ++ toString idx ++ " " ++ d.id_path

/-- The disk loop of `generate_passthrough_commands`: the cursor persists
across iterations and every assigned index is added to the used set. -/
def passthroughGo (vmid : Int) : List Disk → Finset ℕ → ℕ → List String
  | [], _, _ => []
  | d :: rest, used, idx =>
      renderCmd vmid (nextFree used idx) d ::
        passthroughGo vmid rest (insert (nextFree used idx) used) (nextFree used idx)

/-- `generate_passthrough_commands`: the used set comes from
`get_used_scsi_indexes` on the `qm config` query result. -/
def generate_passthrough_commands (selected_disks : List Disk) (selected_vm : VM)
    (cfgRes : Except Unit String) : List String :=
  passthroughGo selected_vm.vmid selected_disks (get_used_scsi_indexes cfgRes) 0

/-- `validate_disk_selection`: every selected disk must agree with some
available disk on name, model, serial and size (`id_path` is not compared). -/
def validate_disk_selection (selected_disks available_disks : List Disk) : Bool :=
  selected_disks.all fun s =>
    available_disks.any fun d =>
      d.name == s.name && d.model == s.model && d.serial == s.serial && d.size == s.size

/-- `validate_vm_selection`: the selected VM must agree with some available
VM on vmid, name and status. -/
def validate_vm_selection (selected_vm : VM) (available_vms : List VM) : Bool :=
  available_vms.any fun v =>
    v.vmid == selected_vm.vmid && v.name == selected_vm.name &&
      v.status == selected_vm.status

/-! ## Properties of the slot-allocation loop -/

theorem nextFreeAux_spec (fuel : ℕ) :
    ∀ (used : Finset ℕ) (i : ℕ), (∃ j, i ≤ j ∧ j < i + fuel ∧ j ∉ used) →
      nextFreeAux fuel used i ∉ used ∧ i ≤ nextFreeAux fuel used i ∧
        ∀ k, i ≤ k → k < nextFreeAux fuel used i → k ∈ used := by
  induction fuel with
  | zero =>
      intro used i h
      obtain ⟨j, h1, h2, _⟩ := h
      omega
  | succ f ih =>
      intro used i h
      by_cases hi : i ∈ used
      · obtain ⟨j, h1, h2, h3⟩ := h
        have hne : j ≠ i := fun e => h3 (e ▸ hi)
        obtain ⟨a1, a2, a3⟩ := ih used (i + 1) ⟨j, by omega, by omega, h3⟩
        simp only [nextFreeAux, if_pos hi]
        refine ⟨a1, by omega, ?_⟩
        intro k hk1 hk2
        rcases Nat.eq_or_lt_of_le hk1 with rfl | hk
        · exact hi
        · exact a3 k (by omega) hk2
      · simp only [nextFreeAux, if_neg hi]
        exact ⟨hi, Nat.le_refl i,
          fun k h1 h2 => absurd (Nat.lt_of_le_of_lt h1 h2) (Nat.lt_irrefl i)⟩

theorem exists_free (used : Finset ℕ) (i : ℕ) :
    ∃ j, i ≤ j ∧ j < i + (used.card + 1) ∧ j ∉ used := by
  by_contra h
  push_neg at h
  have hsub : Finset.Ico i (i + (used.card + 1)) ⊆ used := by
    intro x hx
    rw [Finset.mem_Ico] at hx
    exact h x hx.1 hx.2
  have := Finset.card_le_card hsub
  rw [Nat.card_Ico] at this
  omega

theorem nextFree_spec (used : Finset ℕ) (i : ℕ) :
    nextFree used i ∉ used ∧ i ≤ nextFree used i ∧
      ∀ k, i ≤ k → k < nextFree used i → k ∈ used :=
  nextFreeAux_spec _ used i (exists_free used i)

theorem nextFree_least (used : Finset ℕ) (i : ℕ) (h : ∀ k < i, k ∈ used) :
    nextFree used i ∉ used ∧ ∀ k < nextFree used i, k ∈ used := by
  obtain ⟨h1, _, h3⟩ := nextFree_spec used i
  refine ⟨h1, fun k hk => ?_⟩
  by_cases hki : k < i
  · exact h k hki
  · exact h3 k (by omega) hk

theorem allocateFrom_length (n : ℕ) :
    ∀ (used : Finset ℕ) (idx : ℕ), (allocateFrom used idx n).length = n := by
  induction n with
  | zero => intro used idx; rfl
  | succ n ih => intro used idx; simp [allocateFrom, ih]

theorem allocateFrom_least (n : ℕ) :
    ∀ (used : Finset ℕ) (idx : ℕ), (∀ k < idx, k ∈ used) →
      ∀ pre i post, allocateFrom used idx n = pre ++ i :: post →
        i ∉ used ∪ pre.toFinset ∧ ∀ k < i, k ∈ used ∪ pre.toFinset := by
  induction n with
  | zero =>
      intro used idx _ pre i post h
      rw [allocateFrom] at h
      cases pre <;> simp_all
  | succ n ih =>
      intro used idx hinv pre i post h
      rw [allocateFrom] at h
      cases pre with
      | nil =>
          simp only [List.nil_append] at h
          injection h with h1 h2
          subst h1
          simp only [List.toFinset_nil, Finset.union_empty]
          exact nextFree_least used idx hinv
      | cons p pre' =>
          simp only [List.cons_append] at h
          injection h with h1 h2
          subst h1
          obtain ⟨nf1, nf2, nf3⟩ := nextFree_spec used idx
          have hinv' : ∀ k < nextFree used idx, k ∈ insert (nextFree used idx) used := by
            intro k hk
            by_cases hki : k < idx
            · exact Finset.mem_insert_of_mem (hinv k hki)
            · exact Finset.mem_insert_of_mem (nf3 k (by omega) hk)
          have hrec := ih (insert (nextFree used idx) used) (nextFree used idx) hinv'
            pre' i post h2
          have hset : used ∪ (nextFree used idx :: pre').toFinset =
              insert (nextFree used idx) used ∪ pre'.toFinset := by
            simp only [List.toFinset_cons, Finset.union_insert, Finset.insert_union]
          rw [hset]
          exact hrec

theorem allocate_least (occ : Finset ℕ) (n : ℕ) :
    ∀ pre i post, allocate occ n = pre ++ i :: post →
      i ∉ occ ∪ pre.toFinset ∧ ∀ k < i, k ∈ occ ∪ pre.toFinset :=
  allocateFrom_least n occ 0 (fun k hk => absurd hk (Nat.not_lt_zero k))

theorem nodup_of_no_self_mem (l : List ℕ) :
    (∀ pre i post, l = pre ++ i :: post → i ∉ pre) → l.Nodup := by
  induction l with
  | nil => intro _; exact List.nodup_nil
  | cons a t ih =>
      intro h
      rw [List.nodup_cons]
      constructor
      · intro hmem
        obtain ⟨s, u, rfl⟩ := List.append_of_mem hmem
        exact h (a :: s) a u rfl (List.mem_cons_self a s)
      · refine ih ?_
        intro pre i post heq hip
        exact h (a :: pre) i post (by rw [heq, List.cons_append])
          (List.mem_cons_of_mem a hip)

theorem allocate_nodup (occ : Finset ℕ) (n : ℕ) : (allocate occ n).Nodup := by
  apply nodup_of_no_self_mem
  intro pre i post heq hip
  exact (allocate_least occ n pre i post heq).1
    (Finset.mem_union_right _ (List.mem_toFinset.2 hip))

theorem allocate_disjoint (occ : Finset ℕ) (n : ℕ) :
    ∀ i ∈ allocate occ n, i ∉ occ := by
  intro i hi hocc
  obtain ⟨s, u, heq⟩ := List.append_of_mem hi
  exact (allocate_least occ n s i u heq).1 (Finset.mem_union_left _ hocc)

theorem allocateFrom_chain (n : ℕ) :
    ∀ (used : Finset ℕ) (idx : ℕ), List.Chain' (· < ·) (allocateFrom used idx n) := by
  induction n with
  | zero => intro used idx; rw [allocateFrom]; exact List.chain'_nil
  | succ n ih =>
      intro used idx
      rw [allocateFrom]
      refine List.chain'_cons'.2 ⟨?_, ih _ _⟩
      intro y hy
      cases n with
      | zero => rw [allocateFrom] at hy; simp at hy
      | succ m =>
          rw [allocateFrom] at hy
          simp only [List.head?_cons, Option.mem_def, Option.some.injEq] at hy
          subst hy
          obtain ⟨h1, h2, _⟩ :=
            nextFree_spec (insert (nextFree used idx) used) (nextFree used idx)
          have hne : nextFree (insert (nextFree used idx) used) (nextFree used idx) ≠
              nextFree used idx := by
            intro e
            rw [e] at h1
            exact h1 (Finset.mem_insert_self _ _)
          omega

theorem allocate_chain (occ : Finset ℕ) (n : ℕ) :
    List.Chain' (· < ·) (allocate occ n) :=
  allocateFrom_chain n occ 0

theorem passthroughGo_eq (ds : List Disk) :
    ∀ (vmid : Int) (used : Finset ℕ) (idx : ℕ),
      passthroughGo vmid ds used idx =
        List.zipWith (renderCmd vmid) (allocateFrom used idx ds.length) ds := by
  induction ds with
  | nil => intro vmid used idx; rfl
  | cons d rest ih =>
      intro vmid used idx
      simp only [passthroughGo, List.length_cons, allocateFrom, List.zipWith]
      rw [ih]

/-! ## Properties of the disk filter -/

theorem enumStep_some (fr : String → Except Unit (List String)) (zfs : List String)
    (line : List Char) (d : Disk) (h : enumStep fr zfs line = .ok (some d)) :
    d.name ∉ zfs ∧ ∃ ps, fr d.name = .ok ps ∧ prioritizedPath ps = some d.id_path := by
  rw [enumStep] at h
  cases hrf : rowFields line with
  | none => rw [hrf] at h; cases h
  | some v =>
      obtain ⟨a, b, c, d4⟩ := v
      rw [hrf] at h
      simp only at h
      by_cases ha : a ∈ zfs
      · rw [if_pos ha] at h; cases h
      · rw [if_neg ha] at h
        cases hfr : fr a with
        | error e => rw [hfr] at h; cases h
        | ok ps =>
            rw [hfr] at h
            simp only at h
            cases hpp : prioritizedPath ps with
            | none => rw [hpp] at h; cases h
            | some pr =>
                rw [hpp] at h
                simp only [Option.map_some'] at h
                injection h with h
                injection h with h
                subst h
                exact ⟨ha, ps, hfr, hpp⟩

theorem enumRows_sound (fr : String → Except Unit (List String)) (zfs : List String) :
    ∀ (lines : List (List Char)) (ds : List Disk), enumRows fr zfs lines = .ok ds →
      ∀ d ∈ ds, d.name ∉ zfs ∧
        ∃ ps, fr d.name = .ok ps ∧ prioritizedPath ps = some d.id_path := by
  intro lines
  induction lines with
  | nil =>
      intro ds h
      rw [enumRows] at h
      injection h with h
      subst h
      intro d hd
      cases hd
  | cons line rest ih =>
      intro ds h
      rw [enumRows] at h
      cases hst : enumStep fr zfs line with
      | error e => rw [hst] at h; cases h
      | ok o =>
          rw [hst] at h
          cases o with
          | none => exact ih ds h
          | some disk =>
              simp only at h
              cases htail : enumRows fr zfs rest with
              | error e => rw [htail] at h; cases h
              | ok tail =>
                  rw [htail] at h
                  simp only [Except.map] at h
                  injection h with h
                  subst h
                  intro d hd
                  rcases List.mem_cons.1 hd with rfl | hd'
                  · exact enumStep_some fr zfs line d hst
                  · exact ih tail htail d hd'

theorem enumRows_allFail (fr : String → Except Unit (List String))
    (hfr : ∀ s, fr s = .error ()) (zfs : List String) :
    ∀ lines, enumRows fr zfs lines = .ok [] ∨ enumRows fr zfs lines = .error () := by
  intro lines
  induction lines with
  | nil => left; rfl
  | cons line rest ih =>
      rw [enumRows]
      cases hst : enumStep fr zfs line with
      | error e => right; cases e; rfl
      | ok o =>
          cases o with
          | none => exact ih
          | some disk =>
              exfalso
              rw [enumStep] at hst
              cases hrf : rowFields line with
              | none => rw [hrf] at hst; cases hst
              | some v =>
                  obtain ⟨a, b, c, d4⟩ := v
                  rw [hrf] at hst
                  simp only at hst
                  by_cases ha : a ∈ zfs
                  · rw [if_pos ha] at hst; cases hst
                  · rw [if_neg ha, hfr a] at hst; cases hst

theorem enumRows_skip (fr : String → Except Unit (List String)) (zfs : List String)
    (line : List Char) (rest : List (List Char)) (h : rowFields line = none) :
    enumRows fr zfs (line :: rest) = enumRows fr zfs rest := by
  rw [enumRows, enumStep, h]

/-! ## Properties of the selection validators -/

theorem validate_disk_selection_iff (sel avail : List Disk) :
    validate_disk_selection sel avail = true ↔
      ∀ s ∈ sel, ∃ d ∈ avail, d.name = s.name ∧ d.model = s.model ∧
        d.serial = s.serial ∧ d.size = s.size := by
  simp [validate_disk_selection, List.all_eq_true, List.any_eq_true,
    Bool.and_eq_true, beq_iff_eq, and_assoc]

theorem validate_vm_selection_iff (v : VM) (avs : List VM) :
    validate_vm_selection v avs = true ↔
      ∃ w ∈ avs, w.vmid = v.vmid ∧ w.name = v.name ∧ w.status = v.status := by
  simp [validate_vm_selection, List.any_eq_true, Bool.and_eq_true, beq_iff_eq,
    and_assoc]

/-! ## Properties of the scsi-index scraper -/

theorem stripSeq_eq_some (p : List Char) :
    ∀ l r, stripSeq p l = some r ↔ l = p ++ r := by
  induction p with
  | nil => intro l r; simp [stripSeq, eq_comm]
  | cons a p ih =>
      intro l r
      cases l with
      | nil => simp [stripSeq]
      | cons b l' =>
          simp only [stripSeq, List.cons_append]
          by_cases hab : a = b
          · subst hab
            simp [ih]
          · have hf : (a == b) = false := beq_eq_false_iff_ne.2 hab
            simp [hf, Ne.symm hab]

theorem takeWhile_digits_append (ds t : List Char)
    (hds : ∀ c ∈ ds, c.isDigit = true) :
    (ds ++ ':' :: t).takeWhile Char.isDigit = ds ∧
      (ds ++ ':' :: t).dropWhile Char.isDigit = ':' :: t := by
  have hcolon : (':' : Char).isDigit = false := by decide
  induction ds with
  | nil => simp [List.takeWhile_cons, List.dropWhile_cons, hcolon]
  | cons c cs ih =>
      have hc : c.isDigit = true := hds c (List.mem_cons_self c cs)
      have ht := ih (fun x hx => hds x (List.mem_cons_of_mem c hx))
      simp [List.takeWhile_cons, List.dropWhile_cons, hc, ht.1, ht.2]

theorem scsiMatch_eq_some (l : List Char) (n : ℕ) :
    scsiMatch l = some n ↔
      ∃ ds : List Char, ds ≠ [] ∧ (∀ c ∈ ds, c.isDigit = true) ∧ digitsVal ds = n ∧
        ∃ t, l = "scsi".data ++ ds ++ ':' :: t := by
  constructor
  · intro h
    rw [scsiMatch] at h
    cases hs : stripSeq "scsi".data l with
    | none => rw [hs] at h; cases h
    | some rest =>
        rw [hs] at h
        simp only at h
        by_cases hc : ¬ (rest.takeWhile Char.isDigit).isEmpty ∧
            startsColon (rest.dropWhile Char.isDigit) = true
        · rw [if_pos hc] at h
          injection h with h
          obtain ⟨h1, h2⟩ := hc
          cases hd : rest.dropWhile Char.isDigit with
          | nil => rw [hd] at h2; cases h2
          | cons x t =>
              rw [hd] at h2
              have hx : x = ':' := by
                rw [startsColon] at h2
                exact beq_iff_eq.1 h2
              subst hx
              refine ⟨rest.takeWhile Char.isDigit, ?_, ?_, h, t, ?_⟩
              · intro he
                rw [he] at h1
                exact h1 rfl
              · intro c hc'
                exact List.mem_takeWhile_imp hc'
              · have hl : l = "scsi".data ++ rest := (stripSeq_eq_some _ _ _).1 hs
                have hr : rest = rest.takeWhile Char.isDigit ++ (':' :: t) := by
                  conv_lhs => rw [← List.takeWhile_append_dropWhile
                    (p := Char.isDigit) (l := rest)]
                  rw [hd]
                rw [hl, List.append_assoc, ← hr]
        · rw [if_neg hc] at h; cases h
  · rintro ⟨ds, hne, hdig, hval, t, rfl⟩
    rw [scsiMatch]
    have hs : stripSeq "scsi".data ("scsi".data ++ ds ++ ':' :: t) =
        some (ds ++ ':' :: t) := by
      rw [stripSeq_eq_some, List.append_assoc]
    rw [hs]
    simp only
    obtain ⟨ht1, ht2⟩ := takeWhile_digits_append ds t hdig
    rw [ht1, ht2]
    have hemp : ds.isEmpty = false := by
      cases ds
      · exact absurd rfl hne
      · rfl
    simp [startsColon, hemp, hval]

theorem mem_scsiFold (lines : List (List Char)) :
    ∀ (acc : Finset ℕ) (n : ℕ),
      (n ∈ lines.foldl
        (fun s l =>
          match scsiMatch l with
          | some m => insert m s
          | none => s) acc) ↔
        n ∈ acc ∨ ∃ l ∈ lines, scsiMatch l = some n := by
  induction lines with
  | nil => intro acc n; simp
  | cons line rest ih =>
      intro acc n
      rw [List.foldl_cons]
      cases h : scsiMatch line with
      | none =>
          rw [ih]
          simp only [List.mem_cons]
          constructor
          · rintro (hacc | ⟨l, hl, hm⟩)
            · exact Or.inl hacc
            · exact Or.inr ⟨l, Or.inr hl, hm⟩
          · rintro (hacc | ⟨l, rfl | hl, hm⟩)
            · exact Or.inl hacc
            · rw [h] at hm; cases hm
            · exact Or.inr ⟨l, hl, hm⟩
      | some m =>
          rw [ih]
          simp only [Finset.mem_insert, List.mem_cons]
          constructor
          · rintro ((rfl | hacc) | ⟨l, hl, hm⟩)
            · exact Or.inr ⟨line, Or.inl rfl, h⟩
            · exact Or.inl hacc
            · exact Or.inr ⟨l, Or.inr hl, hm⟩
          · rintro (hacc | ⟨l, rfl | hl, hm⟩)
            · exact Or.inl (Or.inr hacc)
            · rw [h] at hm
              injection hm with hm
              exact Or.inl (Or.inl hm.symm)
            · exact Or.inr ⟨l, hl, hm⟩

/-! ## Properties of the VM listing -/

theorem vmRows_skip (line : List Char) (rest : List (List Char))
    (h : (pySplitMax 2 line).length ≠ 3) : vmRows (line :: rest) = vmRows rest := by
  rw [vmRows]
  split
  · next a b c heq => exact absurd (by rw [heq]; rfl) h
  · rfl

theorem vmRows_badInt (line : List Char) (a b c : List Char) (rest : List (List Char))
    (hp : pySplitMax 2 line = [a, b, c]) (hint : pyInt? (String.mk a) = none) :
    vmRows (line :: rest) = none := by
  rw [vmRows, hp]
  simp only
  rw [hint]

theorem list_vms_total (out : String) :
    list_vms (.ok out) = [] ∨ vmRows (tailLines out.data) = some (list_vms (.ok out)) := by
  rw [list_vms]
  cases h : vmRows (tailLines out.data) with
  | none => left; rfl
  | some vms => right; rfl

/-! ## Properties of the identifier resolver -/

theorem prioritizedPath_wwn (ps : List String)
    (h : ∃ p ∈ ps, occursIn "wwn-".data p.data = true) :
    ∃ q, prioritizedPath ps = some q ∧ occursIn "wwn-".data q.data = true := by
  rw [prioritizedPath]
  cases hf : ps.find? (fun p => occursIn "wwn-".data p.data) with
  | none =>
      obtain ⟨p, hp, hw⟩ := h
      rw [List.find?_eq_none] at hf
      exact absurd hw (by simpa using hf p hp)
  | some q => exact ⟨q, rfl, by simpa using List.find?_some hf⟩

theorem prioritizedPath_head (ps : List String)
    (h : ∀ p ∈ ps, occursIn "wwn-".data p.data = false) :
    prioritizedPath ps = ps.head? := by
  rw [prioritizedPath]
  cases hf : ps.find? (fun p => occursIn "wwn-".data p.data) with
  | none => rfl
  | some q =>
      have hq := List.find?_some hf
      rw [h q (List.mem_of_find?_eq_some hf)] at hq
      cases hq

example : pySplitMax 3 "sda  ModelX  S1  10G".data =
    ["sda".data, "ModelX".data, "S1".data, "10G".data] := by decide

example : pySplitMax 2 " a b  c   d e ".data = ["a".data, "b".data, "c   d e ".data] := by
  decide

example : hyphenFix "Samsung SSD X".data = "Samsung-SSD-X".data := by decide

example : scsiMatch "scsi0: local".data = some 0 := by decide

example : scsiMatch "xscsi1: a".data = none := by decide

example : pyInt? "100" = some 100 := by decide

example : pyInt? "abc" = none := by decide

example : allocate {0, 1, 3} 3 = [2, 4, 5] := by decide

example : zfsNames "  sdb  ONLINE  0 0 0".data = ["sdb"] := by decide

/-! ## Claims -/

/-- C1: the command generator produces exactly one command per input disk,
in input order (the commands are the rendering of the allocated index
sequence zipped with the disks); each produced index is the smallest
non-negative integer outside the union of the original occupied set and
the previously produced indices; hence the produced indices are pairwise
distinct, disjoint from the original occupied set, and equal in count to
the number of input disks. -/
theorem C1_allocation_least_and_shape (occ : Finset ℕ) (n : ℕ) :
    (allocate occ n).length = n ∧
    (∀ pre i post, allocate occ n = pre ++ i :: post →
      i ∉ occ ∪ pre.toFinset ∧ ∀ k < i, k ∈ occ ∪ pre.toFinset) ∧
    (allocate occ n).Nodup ∧
    (∀ i ∈ allocate occ n, i ∉ occ) ∧
    (∀ (ds : List Disk) (vm : VM) (cfg : Except Unit String),
      generate_passthrough_commands ds vm cfg =
        List.zipWith (renderCmd vm.vmid)
          (allocate (get_used_scsi_indexes cfg) ds.length) ds ∧
      (generate_passthrough_commands ds vm cfg).length = ds.length) := by
  refine ⟨allocateFrom_length n occ 0, allocate_least occ n, allocate_nodup occ n,
    allocate_disjoint occ n, fun ds vm cfg => ⟨passthroughGo_eq ds vm.vmid _ 0, ?_⟩⟩
  rw [generate_passthrough_commands, passthroughGo_eq]
  simp [allocateFrom_length]

/-- Witness for C1 at `occupied = {0}` and two disks: `allocate {0} 2 = [1, 2]`,
and the first produced index `1` is least outside `{0}`. -/
theorem C1_witness :
    1 ∉ ({0} : Finset ℕ) ∪ ([] : List ℕ).toFinset ∧
      ∀ k < 1, k ∈ ({0} : Finset ℕ) ∪ ([] : List ℕ).toFinset :=
  (C1_allocation_least_and_shape {0} 2).2.1 [] 1 [2] (by decide)

/-- C2: every disk emitted by `enumerate_physical_disks` has a name outside
the pool-claimed (ONLINE) name set, regardless of the alias oracle. -/
theorem C2_pool_claimed_excluded (lout zout : String)
    (fr : String → Except Unit (List String)) (d : Disk)
    (hd : d ∈ enumerate_physical_disks (.ok lout) (.ok zout) fr) :
    d.name ∉ zfsNames zout.data := by
  rw [enumerate_physical_disks] at hd
  cases h : enumRows fr (zfsNames zout.data) (lsblkRows lout) with
  | error e => rw [h] at hd; cases hd
  | ok ds =>
      rw [h] at hd
      exact (enumRows_sound fr (zfsNames zout.data) _ ds h d hd).1

/-- Witness for C2 on a one-disk enumeration with `sdb` claimed by the pool. -/
theorem C2_witness : ("sda" : String) ∉ zfsNames "  sdb  ONLINE  0 0 0".data :=
  C2_pool_claimed_excluded "NAME  MODEL  SERIAL  SIZE\nsda  ModelX  S1  10G"
    "  sdb  ONLINE  0 0 0"
    (fun n => if n = "sda" then .ok ["/dev/disk/by-id/wwn-0x1"] else .ok [])
    ⟨"sda", "ModelX", "S1", "10G", "/dev/disk/by-id/wwn-0x1"⟩ (by decide)

/-- C3: whenever some returned alias contains the `wwn-` marker the resolver
selects a marker-bearing alias, in whatever order the aliases arrive; when no
alias carries the marker it selects the first returned alias; and every disk
the filter emits was resolved from a non-empty alias list through exactly
this selection. -/
theorem C3_alias_priority :
    (∀ ps : List String, (∃ p ∈ ps, occursIn "wwn-".data p.data = true) →
      ∃ q, prioritizedPath ps = some q ∧ occursIn "wwn-".data q.data = true) ∧
    (∀ ps : List String, (∀ p ∈ ps, occursIn "wwn-".data p.data = false) →
      prioritizedPath ps = ps.head?) ∧
    (∀ (lr zr : Except Unit String) (fr : String → Except Unit (List String))
      (d : Disk), d ∈ enumerate_physical_disks lr zr fr →
      ∃ ps, fr d.name = .ok ps ∧ ps ≠ [] ∧ prioritizedPath ps = some d.id_path) := by
  refine ⟨prioritizedPath_wwn, prioritizedPath_head, fun lr zr fr d hd => ?_⟩
  cases lr with
  | error e => cases hd
  | ok lout =>
      cases zr with
      | error e => cases hd
      | ok zout =>
          rw [enumerate_physical_disks] at hd
          cases h : enumRows fr (zfsNames zout.data) (lsblkRows lout) with
          | error e => rw [h] at hd; cases hd
          | ok ds =>
              rw [h] at hd
              obtain ⟨-, ps, hfr, hpp⟩ :=
                enumRows_sound fr (zfsNames zout.data) _ ds h d hd
              refine ⟨ps, hfr, ?_, hpp⟩
              intro he
              rw [he] at hpp
              cases hpp

/-- Witness for C3: with one `ata-` and one `wwn-` alias, in that order,
the `wwn-` alias is selected. -/
theorem C3_witness :
    ∃ q, prioritizedPath ["/dev/disk/by-id/ata-1", "/dev/disk/by-id/wwn-9"] =
      some q ∧ occursIn "wwn-".data q.data = true :=
  C3_alias_priority.1 ["/dev/disk/by-id/ata-1", "/dev/disk/by-id/wwn-9"]
    ⟨"/dev/disk/by-id/wwn-9", by decide, by decide⟩

/-- C4: a failed lsblk query, a failed zpool query, or failing alias lookups
make the filter return the empty list, and in every case the filter returns
either the complete successfully-computed row-loop result or the empty
list — never a partial sequence, and never a crash (the function is total). -/
theorem C4_fail_closed :
    (∀ (zr : Except Unit String) fr, enumerate_physical_disks (.error ()) zr fr = []) ∧
    (∀ (lr : Except Unit String) fr, enumerate_physical_disks lr (.error ()) fr = []) ∧
    (∀ (lr zr : Except Unit String) fr, (∀ s, fr s = .error ()) →
      enumerate_physical_disks lr zr fr = []) ∧
    (∀ (lr zr : Except Unit String) fr,
      enumerate_physical_disks lr zr fr = [] ∨
      ∃ lout zout, lr = .ok lout ∧ zr = .ok zout ∧
        enumRows fr (zfsNames zout.data) (lsblkRows lout) =
          .ok (enumerate_physical_disks lr zr fr)) := by
  refine ⟨fun zr fr => rfl, fun lr fr => ?_, fun lr zr fr hfr => ?_, fun lr zr fr => ?_⟩
  · cases lr <;> rfl
  · cases lr with
    | error e => rfl
    | ok lout =>
        cases zr with
        | error e => rfl
        | ok zout =>
            rcases enumRows_allFail fr hfr (zfsNames zout.data) (lsblkRows lout)
              with h | h <;>
              · simp only [enumerate_physical_disks]
                rw [h]
  · cases lr with
    | error e => exact Or.inl rfl
    | ok lout =>
        cases zr with
        | error e => exact Or.inl rfl
        | ok zout =>
            cases h : enumRows fr (zfsNames zout.data) (lsblkRows lout) with
            | error e =>
                left
                simp only [enumerate_physical_disks]
                rw [h]
            | ok ds =>
                right
                exact ⟨lout, zout, rfl, rfl, by simp only [enumerate_physical_disks, h]⟩

/-- Witness for C4: with every alias lookup failing, a well-formed
enumeration yields the empty list. -/
theorem C4_witness :
    enumerate_physical_disks (.ok "NAME  M  S  SZ\nsda  M  S  10G")
      (.ok "sdb ONLINE") (fun _ => .error ()) = [] :=
  C4_fail_closed.2.2.1 _ _ _ (fun _ => rfl)

/-- C5 as stated is false on two counts: with an empty selection the disk
validator returns true even against an empty reference collection, and a
selected disk with one field altered from its matching reference entry can
still validate when the altered entry agrees with a different reference
entry on the four compared fields. -/
theorem C5_counterexample :
    validate_disk_selection [] [] = true ∧
    validate_disk_selection [⟨"sdb", "M", "S1", "10G", "p1"⟩]
      [⟨"sda", "M", "S1", "10G", "p1"⟩, ⟨"sdb", "M", "S1", "10G", "p2"⟩] = true :=
  ⟨by decide, by decide⟩

/-- C5 amended: `validate_disk_selection` is true exactly when every
selected disk agrees with some available disk on the four compared fields,
and `validate_vm_selection` is true exactly when the selected VM agrees
with some available VM on all three fields; consequently an altered
selection fails exactly when the altered entry matches no reference entry.
`validate_vm_selection` is false on an empty reference collection, and
`validate_disk_selection` is false on an empty reference collection
whenever the selection is non-empty (an empty selection is vacuously
accepted). -/
theorem C5_validators_amended :
    (∀ sel avail, validate_disk_selection sel avail = true ↔
      ∀ s ∈ sel, ∃ d ∈ avail, d.name = s.name ∧ d.model = s.model ∧
        d.serial = s.serial ∧ d.size = s.size) ∧
    (∀ v avs, validate_vm_selection v avs = true ↔
      ∃ w ∈ avs, w.vmid = v.vmid ∧ w.name = v.name ∧ w.status = v.status) ∧
    (∀ v : VM, validate_vm_selection v [] = false) ∧
    (∀ sel : List Disk, sel ≠ [] → validate_disk_selection sel [] = false) := by
  refine ⟨validate_disk_selection_iff, validate_vm_selection_iff, fun v => rfl, ?_⟩
  intro sel hne
  cases sel with
  | nil => exact absurd rfl hne
  | cons s t => rfl

/-- Witness for C5 (amended): a non-empty selection against an empty
reference collection is rejected. -/
theorem C5_witness :
    validate_disk_selection [⟨"sda", "M", "S", "1G", "p"⟩] [] = false :=
  C5_validators_amended.2.2.2 [⟨"sda", "M", "S", "1G", "p"⟩] (by decide)

/-- C6 as stated is false: its first half (non-decreasing indices) holds,
but no input can make a produced index equal the preceding one, because the
produced indices are pairwise distinct. -/
theorem C6_counterexample :
    ¬ ((∀ (occ : Finset ℕ) (n : ℕ), List.Chain' (· ≤ ·) (allocate occ n)) ∧
       ∃ (occ : Finset ℕ) (n : ℕ), 2 ≤ n ∧
         ∃ pre i post, allocate occ n = pre ++ i :: i :: post) := by
  rintro ⟨-, occ, n, -, pre, i, post, h⟩
  have hnd := allocate_nodup occ n
  rw [h] at hnd
  have h2 := List.Nodup.of_append_right hnd
  rw [List.nodup_cons] at h2
  exact h2.1 (List.mem_cons_self i post)

/-- C6 amended: the produced index sequence is strictly non-decreasing, and
in fact always strictly increasing — adjacent produced indices are never
equal. -/
theorem C6_amended_strictly_increasing (occ : Finset ℕ) (n : ℕ) :
    List.Chain' (· ≤ ·) (allocate occ n) ∧ List.Chain' (· < ·) (allocate occ n) :=
  ⟨List.Chain'.imp (fun _ _ h => le_of_lt h) (allocate_chain occ n),
    allocate_chain occ n⟩

/-- C7 as stated is false: wrong-shape rows are discarded individually, but
a VM row of the right shape whose id field is not a valid integer makes
`list_vms` return the empty list — the well-formed row `100 vm1 running` is
no longer returned once the malformed row `abc vm2 stopped` is present. -/
theorem C7_counterexample :
    list_vms (.ok "VMID NAME STATUS\n100 vm1 running") = [⟨100, "vm1", "running"⟩] ∧
    list_vms (.ok "VMID NAME STATUS\n100 vm1 running\nabc vm2 stopped") = [] :=
  ⟨by decide, by decide⟩

/-- C7 amended: a device row that does not split into four non-empty fields
is skipped by itself, a VM row without exactly three fields is skipped by
itself, but a three-field VM row whose id fails integer parsing aborts the
row loop, and `list_vms` then returns the empty list instead of the
well-formed rows (it otherwise returns the complete row-loop result). -/
theorem C7_amended_malformed_rows :
    (∀ (fr : String → Except Unit (List String)) (zfs : List String) line rest,
      rowFields line = none →
      enumRows fr zfs (line :: rest) = enumRows fr zfs rest) ∧
    (∀ line rest, (pySplitMax 2 line).length ≠ 3 →
      vmRows (line :: rest) = vmRows rest) ∧
    (∀ line a b c rest, pySplitMax 2 line = [a, b, c] →
      pyInt? (String.mk a) = none → vmRows (line :: rest) = none) ∧
    (∀ out : String, list_vms (.ok out) = [] ∨
      vmRows (tailLines out.data) = some (list_vms (.ok out))) :=
  ⟨enumRows_skip, vmRows_skip, vmRows_badInt, list_vms_total⟩

/-- Witness for C7 (amended): the malformed row `abc vm2 stopped` aborts
the row loop. -/
theorem C7_witness : vmRows ["abc vm2 stopped".data] = none :=
  C7_amended_malformed_rows.2.2.1 "abc vm2 stopped".data "abc".data "vm2".data
    "stopped".data [] (by decide) (by decide)

/-- C8: the end-to-end scenario — two enumerated devices, `sdb` claimed by
the pool, `sda` resolved through its `wwn-` alias; the single eligible disk
attached to VM 100 with occupied index 0 yields exactly the expected
command string. -/
theorem C8_end_to_end :
    enumerate_physical_disks
      (.ok "NAME  MODEL  SERIAL  SIZE\nsda  ModelX  S1  10G\nsdb  ModelY  S2  20G")
      (.ok "  sdb  ONLINE  0 0 0")
      (fun n =>
        if n = "sda" then
          .ok ["/dev/disk/by-id/ata-ModelX_S1", "/dev/disk/by-id/wwn-0x123"]
        else .ok []) =
      [⟨"sda", "ModelX", "S1", "10G", "/dev/disk/by-id/wwn-0x123"⟩] ∧
    generate_passthrough_commands
      [⟨"sda", "ModelX", "S1", "10G", "/dev/disk/by-id/wwn-0x123"⟩]
      ⟨100, "vm", "running"⟩ (.ok "scsi0: local-lvm:vm-100-disk-0") =
      ["qm set 100 -scsi1 /dev/disk/by-id/wwn-0x123"] :=
  ⟨by decide, by decide⟩

/-- C9: a number is in the occupied-index set exactly when some
configuration line starts with `scsi`, immediately followed by a non-empty
digit sequence of that value and a colon. -/
theorem C9_scsi_index_set (out : String) (n : ℕ) :
    n ∈ get_used_scsi_indexes (.ok out) ↔
      ∃ l ∈ pySplitlines out.data, ∃ ds : List Char, ds ≠ [] ∧
        (∀ c ∈ ds, c.isDigit = true) ∧ digitsVal ds = n ∧
        ∃ t, l = "scsi".data ++ ds ++ ':' :: t := by
  have hfold : get_used_scsi_indexes (.ok out) =
      (pySplitlines out.data).foldl
        (fun s l =>
          match scsiMatch l with
          | some m => insert m s
          | none => s) ∅ := rfl
  rw [hfold, mem_scsiFold]
  simp only [Finset.not_mem_empty, false_or]
  constructor
  · rintro ⟨l, hl, hm⟩
    exact ⟨l, hl, (scsiMatch_eq_some l n).1 hm⟩
  · rintro ⟨l, hl, hds⟩
    exact ⟨l, hl, (scsiMatch_eq_some l n).2 hds⟩

/-- C10: the disk validator never inspects `id_path` — rewriting every
selected disk's identifier leaves its verdict unchanged — so a selection
whose identifier appears nowhere in the reference snapshot still validates
on the four compared fields, and the generated command embeds that foreign
identifier verbatim. -/
theorem C10_id_path_not_compared :
    (∀ (sel avail : List Disk) (f : Disk → String),
      validate_disk_selection
        (sel.map fun d => ⟨d.name, d.model, d.serial, d.size, f d⟩) avail =
        validate_disk_selection sel avail) ∧
    validate_disk_selection [⟨"sda", "ModelX", "S1", "10G", "/dev/disk/by-id/stale"⟩]
      [⟨"sda", "ModelX", "S1", "10G", "/dev/disk/by-id/wwn-0x123"⟩] = true ∧
    (List.map Disk.id_path
      [⟨"sda", "ModelX", "S1", "10G", "/dev/disk/by-id/wwn-0x123"⟩]).contains
        "/dev/disk/by-id/stale" = false ∧
    generate_passthrough_commands
      [⟨"sda", "ModelX", "S1", "10G", "/dev/disk/by-id/stale"⟩]
      ⟨100, "vm", "running"⟩ (.ok "") =
      ["qm set 100 -scsi0 /dev/disk/by-id/stale"] := by
  refine ⟨?_, by decide, by decide, by decide⟩
  intro sel avail f
  rw [validate_disk_selection, validate_disk_selection, List.all_map]
  rfl
